import Mathlib

/-!
# FunDB: storage format, status and thread pool

A shallow embedding of `src/util/status.h`, `src/storage/format.{h,cpp}` and
`src/thread/thread_pool.{h,cpp}`, followed by theorems about it.

Conventions of the embedding:

* a `char` buffer is a `List Byte`; a `char *` into it is a `Nat` offset.  A
  `std::memcpy` that touches a byte outside the buffer has no defined result and
  is modelled by `none`;
* `uint32_t` / `uint64_t` values are natural numbers, stored modulo `2 ^ 32` /
  `2 ^ 64` when they are written;
* `std::memcpy` between an integer and a buffer copies the integer's object
  representation, which depends on the host: every codec function takes the
  host `ByteOrder` as a parameter.
-/

namespace FunDB

/-! ## util/status.h -/

/-- The enumeration `Status::Code`. -/
inductive Status.Code where
  | OK
  | Invalid
deriving DecidableEq, Repr

/-- The data members of `class Status`. -/
structure Status where
  code_ : Status.Code
  msg_ : String
deriving DecidableEq, Repr

/-- The constructor `Status(Status::Code code, std::string_view msg)`, whose
member initialiser list is `code_(Code::OK), msg_(msg)`. -/
def Status.construct (code : Status.Code) (msg : String) : Status :=
  let _ := code
  { code_ := Status.Code.OK, msg_ := msg }

/-- The expression `Status{}`: both constructor arguments take their defaults,
`Code::OK` and the empty string. -/
def Status.default : Status := Status.construct Status.Code.OK ""

/-- The member `bool OK() const`. -/
def Status.OK (s : Status) : Bool := s.code_ == Status.Code.OK

/-- The member `std::string const& Message() const`. -/
def Status.Message (s : Status) : String := s.msg_

/-! ## Bytes and object representations -/

/-- One `char` of a buffer. -/
abbrev Byte := Fin 256

/-- The byte order of the host, which fixes what `std::memcpy` copies out of an
integer object. -/
inductive ByteOrder where
  | little
  | big
deriving DecidableEq, Repr

/-- The value of a byte string read least significant byte first. -/
def fromLittle : List Byte → Nat
  | [] => 0
  | b :: bs => b.val + 256 * fromLittle bs

/-- The `n` least significant bytes of `v`, least significant first. -/
def toLittle : Nat → Nat → List Byte
  | 0, _ => []
  | n + 1, v => ⟨v % 256, Nat.mod_lt v (by decide)⟩ :: toLittle n (v / 256)

/-- The object representation of a `size`-byte unsigned integer holding `val`. -/
def objectBytes (o : ByteOrder) (size val : Nat) : List Byte :=
  match o with
  | ByteOrder.little => toLittle size val
  | ByteOrder.big => (toLittle size val).reverse

/-- The unsigned integer whose object representation is `bs`. -/
def objectValue (o : ByteOrder) (bs : List Byte) : Nat :=
  match o with
  | ByteOrder.little => fromLittle bs
  | ByteOrder.big => fromLittle bs.reverse

/-- The source half of `std::memcpy(dst, buf + p, n)`: the `n` bytes at offset
`p`, or `none` when the range leaves the buffer. -/
def memRead (buf : List Byte) (p n : Nat) : Option (List Byte) :=
  if p + n ≤ buf.length then some ((buf.drop p).take n) else none

/-- The destination half of `std::memcpy(buf + p, src, n)`: the buffer with
`src` stored at offset `p`, or `none` when the range leaves the buffer. -/
def memWrite (buf : List Byte) (p : Nat) (src : List Byte) : Option (List Byte) :=
  if p + src.length ≤ buf.length then
    some (buf.take p ++ src ++ buf.drop (p + src.length))
  else none

/-! ## storage/format.cpp -/

/-- The value of `sizeof(uint32_t)`. -/
def sizeof_uint32_t : Nat := 4

/-- The value of `sizeof(uint64_t)`. -/
def sizeof_uint64_t : Nat := 8

/-- The template `T decode(const char *buf)` at a type of `size` bytes, called
with the pointer `buf + p`. -/
def decode (o : ByteOrder) (size : Nat) (buf : List Byte) (p : Nat) : Option Nat :=
  (memRead buf p size).map (objectValue o)

/-- The template `void encode(T const &val, char *buf)` at a type of `size`
bytes, called with the pointer `buf + p`; the result is the buffer afterwards. -/
def encode (o : ByteOrder) (size val : Nat) (buf : List Byte) (p : Nat) :
    Option (List Byte) :=
  memWrite buf p (objectBytes o size val)

/-- The constant `EntryType::Deleted`. -/
def EntryType.Deleted : Nat := 1

/-- The constant `EntryType::Compressed`. -/
def EntryType.Compressed : Nat := 1 <<< 1

/-- The data members of `struct EntryHeader` (format.h). -/
structure EntryHeader where
  checksum_ : Nat
  flags_ : Nat
  sizeKey_ : Nat
  sizeValue_ : Nat
  sizeValueCompressed_ : Nat
  hash_ : Nat
deriving DecidableEq, Repr

/-- Every field of the header fits the width of its C++ type. -/
def EntryHeader.InRange (h : EntryHeader) : Prop :=
  h.checksum_ < 2 ^ 32 ∧ h.flags_ < 2 ^ 32 ∧ h.sizeKey_ < 2 ^ 64 ∧
    h.sizeValue_ < 2 ^ 64 ∧ h.sizeValueCompressed_ < 2 ^ 64 ∧ h.hash_ < 2 ^ 64

instance (h : EntryHeader) : Decidable h.InRange := by
  unfold EntryHeader.InRange
  infer_instance

/-- The member `bool EntryHeader::IsDeleted() const`: the `uint32_t` value
`flags_ & EntryType::Deleted` converted to `bool`. -/
def EntryHeader.IsDeleted (h : EntryHeader) : Bool :=
  (h.flags_ &&& EntryType.Deleted) != 0

/-- The member `bool EntryHeader::IsCompressed() const`. -/
def EntryHeader.IsCompressed (h : EntryHeader) : Bool :=
  (h.flags_ &&& EntryType.Compressed) != 0

/-- The member `Status EntryHeader::DecodeFrom(const char *buf, EntryHeader &header)`.
`self` is the receiver, `header` the referenced object before the call; the
result is the returned `Status` with `header` after the call. -/
def EntryHeader.DecodeFrom (o : ByteOrder) (self : EntryHeader) (buf : List Byte)
    (header : EntryHeader) : Option (Status × EntryHeader) := do
  let _ := self
  let p := 0
  let v ← decode o sizeof_uint32_t buf p
  let header := { header with checksum_ := v }
  let p := p + sizeof_uint32_t
  let v ← decode o sizeof_uint32_t buf p
  let header := { header with flags_ := v }
  let p := p + sizeof_uint32_t
  let v ← decode o sizeof_uint64_t buf p
  let header := { header with sizeKey_ := v }
  let p := p + sizeof_uint64_t
  let v ← decode o sizeof_uint64_t buf p
  let header := { header with sizeValue_ := v }
  let p := p + sizeof_uint64_t
  let v ← decode o sizeof_uint64_t buf p
  let header := { header with sizeValueCompressed_ := v }
  let p := p + sizeof_uint64_t
  let v ← decode o sizeof_uint64_t buf p
  let header := { header with hash_ := v }
  let _ := p + sizeof_uint64_t
  return (Status.default, header)

/-- The member `uint64_t EntryHeader::EncodeTo(char *buf) const`: every call of
`encode` receives the pointer `buf` itself.  The result is the returned
integer with the buffer after the call. -/
def EntryHeader.EncodeTo (o : ByteOrder) (h : EntryHeader) (buf : List Byte) :
    Option (Nat × List Byte) := do
  let buf ← encode o sizeof_uint32_t h.checksum_ buf 0
  let buf ← encode o sizeof_uint32_t h.flags_ buf 0
  let buf ← encode o sizeof_uint64_t h.sizeKey_ buf 0
  let buf ← encode o sizeof_uint64_t h.sizeValue_ buf 0
  let buf ← encode o sizeof_uint64_t h.sizeValueCompressed_ buf 0
  let buf ← encode o sizeof_uint64_t h.hash_ buf 0
  return (0, buf)

/-- The unsigned integer stored in the `n` bytes of `buf` at offsets
`a, ..., a + n - 1`, written as a weighted sum of single bytes: the byte of
weight `256 ^ i` is at offset `a + i` on a little-endian host and at offset
`a + (n - 1 - i)` on a big-endian host. -/
def storedAt (o : ByteOrder) (buf : List Byte) (a n : Nat) : Nat :=
  ((List.range n).map fun i =>
    (buf.getD (match o with
      | ByteOrder.little => a + i
      | ByteOrder.big => a + (n - 1 - i)) 0).val * 256 ^ i).sum

/-- The header used in the examples: six pairwise different field values. -/
def sampleHeader : EntryHeader :=
  { checksum_ := 1, flags_ := 2, sizeKey_ := 3, sizeValue_ := 4,
    sizeValueCompressed_ := 5, hash_ := 6 }

/-- The header whose six fields are all zero. -/
def zeroHeader : EntryHeader :=
  { checksum_ := 0, flags_ := 0, sizeKey_ := 0, sizeValue_ := 0,
    sizeValueCompressed_ := 0, hash_ := 0 }

/-- The buffer of 48 bytes whose byte at offset `i` is `i`. -/
def countingBuffer : List Byte := (List.range 48).map fun i => Fin.ofNat i

/-- A buffer of `n` zero bytes. -/
def zeroBuffer (n : Nat) : List Byte := List.replicate n 0

/-! ## thread/thread_pool.h and thread/thread_pool.cpp

The pool is a state machine over the data members of `class ThreadPool`.  Every
access to `tasks_` happens while `mtx_` is held, so one worker iteration (from
`std::unique_lock lock(mtx_)` to the end of the loop body) and the locked part of
the body of `AddTask` are single transitions; a transition that cannot take
`mtx_` is reported as blocked.  The `assert` of `AddTask` runs before `mtx_` is
taken and is a transition of its own, which depends on whether `NDEBUG` is
defined. -/

/-- A queued `std::packaged_task<void()>`: `id` identifies the submitted
callable, `throws` tells whether the callable raises when it is run. -/
structure Task where
  id : Nat
  throws : Bool
deriving DecidableEq, Repr

/-- What the shared state of a `std::packaged_task` holds after `operator()`. -/
inductive SharedState where
  | value
  | exception
deriving DecidableEq, Repr

/-- The call `task()` of a `std::packaged_task<void()>`: the callable runs, and
an exception it raises is stored in the shared state instead of leaving the
call. -/
def Task.call (t : Task) : SharedState :=
  if t.throws then SharedState.exception else SharedState.value

/-- A thread that can own `mtx_`. -/
inductive ThreadId where
  | caller
  | worker (i : Nat)
deriving DecidableEq, Repr

/-- The state of one element of `threads_`: its function is still in the loop,
has returned, or has returned and been joined. -/
inductive ThreadState where
  | running
  | finished
  | joined
deriving DecidableEq, Repr

/-- The data members of `class ThreadPool`.  The front of `std::queue tasks_`
is the head of the list; `mtx_` holds its owner.  No member is needed for
`cv_`: see `cvWait`. -/
structure ThreadPool where
  threads_ : List ThreadState
  tasks_ : List Task
  mtx_ : Option ThreadId
  stoped_ : Bool
deriving DecidableEq, Repr

/-- The number of iterations of `for (size_t i = 0; i < nThreads; ++i)` for an
`int nThreads`: the comparison converts `nThreads` to `size_t`. -/
def threadCount (nThreads : Int) : Nat := (nThreads % 2 ^ 64).toNat

/-- The constructor `ThreadPool::ThreadPool(int nThreads)`: the state in which
every worker thread has been created and none has taken `mtx_` yet. -/
def ThreadPool.construct (nThreads : Int) : ThreadPool :=
  { threads_ := List.replicate (threadCount nThreads) ThreadState.running,
    tasks_ := [],
    mtx_ := none,
    stoped_ := false }

/-- The call `cv_.wait(lock, pred)`, which is `while (!pred()) wait(lock);`:
`true` when it returns without blocking, `false` when the thread blocks. -/
def cvWait (pred : Bool) : Bool := pred

/-- The outcome of one iteration of the worker loop. -/
inductive WorkerStep where
  | blockedOnLock (s : ThreadPool)
  | exited (s : ThreadPool)
  | waiting (s : ThreadPool)
  | frontOfEmpty (s : ThreadPool)
  | ran (t : Task) (r : SharedState) (s : ThreadPool)
deriving DecidableEq, Repr

/-- Lines 17-19 of the worker loop: `tasks_.front()`, `tasks_.pop()`, `task()`,
then the end of the iteration, where `lock` is released.  `front()` of an empty
`std::queue` has undefined behaviour. -/
def workerDequeue (s : ThreadPool) : WorkerStep :=
  match s.tasks_ with
  | [] => WorkerStep.frontOfEmpty s
  | task :: rest => WorkerStep.ran task task.call { s with tasks_ := rest, mtx_ := none }

/-- One iteration of the loop run by worker thread `i` (the lambda of the
constructor). -/
def workerIteration (i : Nat) (s : ThreadPool) : WorkerStep :=
  match s.mtx_ with
  | some _ => WorkerStep.blockedOnLock s
  | none =>
    let s := { s with mtx_ := some (ThreadId.worker i) }
    if s.tasks_.isEmpty then
      if s.stoped_ then
        WorkerStep.exited
          { s with mtx_ := none, threads_ := s.threads_.set i ThreadState.finished }
      else if cvWait s.tasks_.isEmpty then
        workerDequeue s
      else
        WorkerStep.waiting { s with mtx_ := none }
    else
      workerDequeue s

/-- The outcome of a call of `AddTask`.  `illFormed`: the call has no
well-formed instantiation, so no program performs it and the pool is as it was.
The other three are outcomes of the statements of the body. -/
inductive AddTaskResult where
  | illFormed (s : ThreadPool)
  | assertionFailed (s : ThreadPool)
  | blockedOnLock (s : ThreadPool)
  | returned (s : ThreadPool)
deriving DecidableEq, Repr

/-- The expression `std::forward(f)` of line 30, written without a template
argument.  The parameter `T` of `std::forward<T>(std::remove_reference_t<T>&)`
occurs in a non-deduced context only, so overload resolution has no candidate:
the expression has no value, whatever the callable `f` is. -/
def forwardUndeduced (f : Task) : Option Task :=
  let _ := f
  none

/-- Line 27 of `AddTask`, `assert(!stoped_)`, which runs before `mtx_` is taken:
`true` when execution goes on to line 28.  With `NDEBUG` defined the assertion
expands to nothing; without it a set `stoped_` aborts the process.  (`assert` is
taken from `<cassert>`, which thread_pool.cpp does not include itself.) -/
def AddTask.assertPasses (ndebug : Bool) (s : ThreadPool) : Bool :=
  ndebug || !s.stoped_

/-- Lines 28 to 33 of `AddTask`, the part under `std::lock_guard`, for a `task`
already built from the callable: the task is put at the back of `tasks_`.  The
`cv_.notify_all()` of an empty queue changes no data member. -/
def AddTask.locked (s : ThreadPool) (task : Task) : AddTaskResult :=
  match s.mtx_ with
  | some _ => AddTaskResult.blockedOnLock s
  | none =>
    let s := { s with mtx_ := some ThreadId.caller }
    let _empty := s.tasks_.isEmpty
    let s := { s with tasks_ := s.tasks_ ++ [task] }
    AddTaskResult.returned { s with mtx_ := none }

/-- The statements of the body of `AddTask`, in order, for a `task` already
built from the callable.  `atAssert` is the pool when line 27 reads `stoped_`,
`atLock` the pool when `std::lock_guard` gets `mtx_`: line 27 is outside the
lock, so other threads may have changed the pool in between. -/
def AddTask.body (ndebug : Bool) (atAssert atLock : ThreadPool) (task : Task) :
    AddTaskResult :=
  if AddTask.assertPasses ndebug atAssert then AddTask.locked atLock task
  else AddTaskResult.assertionFailed atAssert

/-- The member template `ThreadPool::AddTask`, called with a callable `f`.  An
instantiation needs every expression of the body to be well-formed, the
argument `std::forward(f)` of `tasks_.emplace` included; it is not, so the call
is ill-formed for every `f` and the body never runs. -/
def AddTask (ndebug : Bool) (atAssert atLock : ThreadPool) (f : Task) : AddTaskResult :=
  match forwardUndeduced f with
  | none => AddTaskResult.illFormed atAssert
  | some task => AddTask.body ndebug atAssert atLock task

/-- The outcome of a call of `Join`. -/
inductive JoinResult where
  | blockedOnLock (s : ThreadPool)
  | blockedOnJoin (i : Nat) (s : ThreadPool)
  | threw (s : ThreadPool)
  | returned (s : ThreadPool)
deriving DecidableEq, Repr

/-- The loop `for (auto & t: threads_) t.join();` of `Join`, from thread `i` on,
with `rest` the states of the threads not yet visited.  `join()` of a running
thread waits for it, of a joined thread throws `std::system_error`; `lock` is
released when `Join` is left. -/
def joinFrom (s : ThreadPool) : Nat → List ThreadState → JoinResult
  | _, [] => JoinResult.returned { s with mtx_ := none }
  | i, ThreadState.running :: _ => JoinResult.blockedOnJoin i s
  | i, ThreadState.finished :: rest =>
    joinFrom { s with threads_ := s.threads_.set i ThreadState.joined } (i + 1) rest
  | _, ThreadState.joined :: _ => JoinResult.threw { s with mtx_ := none }

/-- Lines 37-38 of `Join`, once `mtx_` has been taken: `stoped_ = true`. -/
def setStopped (s : ThreadPool) : ThreadPool :=
  { s with mtx_ := some ThreadId.caller, stoped_ := true }

/-- The member `ThreadPool::Join`. -/
def Join (s : ThreadPool) : JoinResult :=
  match s.mtx_ with
  | some _ => JoinResult.blockedOnLock s
  | none =>
    let s := setStopped s
    joinFrom s 0 s.threads_

/-- An action of one thread on the pool: `addTask t` is the locked part of the
body of `AddTask` putting `t` in the queue of a running pool, `worker i` one
loop iteration of worker `i`. -/
inductive Event where
  | addTask (t : Task)
  | worker (i : Nat)
deriving DecidableEq, Repr

/-- The record of a run: the pool, the tasks submitted so far and the tasks
dequeued so far, both oldest first. -/
structure Run where
  pool : ThreadPool
  submitted : List Task
  dequeued : List Task
deriving DecidableEq, Repr

/-- One event applied to a run: the locked part of `AddTask` on a running pool,
or one loop iteration of a worker whose function has not returned.  The result
is `none` when the event does not complete (blocked thread, `front()` of an empty
queue), when it names a thread that is not running, and for an `addTask` on a
pool with `stoped_` set, where the outcome depends on `NDEBUG`. -/
def Run.step (r : Run) : Event → Option Run
  | Event.addTask t =>
    if r.pool.stoped_ then none
    else
      match AddTask.locked r.pool t with
      | AddTaskResult.returned s => some { r with pool := s, submitted := r.submitted ++ [t] }
      | _ => none
  | Event.worker i =>
    if r.pool.threads_[i]? = some ThreadState.running then
      match workerIteration i r.pool with
      | WorkerStep.ran t _ s => some { r with pool := s, dequeued := r.dequeued ++ [t] }
      | WorkerStep.exited s => some { r with pool := s }
      | _ => none
    else none

/-- A sequence of events applied to a run, in order. -/
def Run.steps (r : Run) : List Event → Option Run
  | [] => some r
  | e :: es => (r.step e).bind fun r1 => r1.steps es

/-- The run that starts at pool state `s`. -/
def Run.start (s : ThreadPool) : Run := { pool := s, submitted := [], dequeued := [] }

/-- The buffer offsets that `std::memcpy(dst, buf + p, n)` reads, in order. -/
def memReadOffsets (p n : Nat) : List Nat := List.range' p n

/-- The buffer offsets that `EntryHeader::DecodeFrom` reads, in order: each of its
six `decode` calls copies `sizeof` bytes from the pointer `p`, which is then
advanced by the same `sizeof`.  No statement of the function looks at a buffer
length, so the offsets are the same for every buffer. -/
def EntryHeader.DecodeFrom.readOffsets : List Nat :=
  let p := 0
  let r1 := memReadOffsets p sizeof_uint32_t
  let p := p + sizeof_uint32_t
  let r2 := memReadOffsets p sizeof_uint32_t
  let p := p + sizeof_uint32_t
  let r3 := memReadOffsets p sizeof_uint64_t
  let p := p + sizeof_uint64_t
  let r4 := memReadOffsets p sizeof_uint64_t
  let p := p + sizeof_uint64_t
  let r5 := memReadOffsets p sizeof_uint64_t
  let p := p + sizeof_uint64_t
  let r6 := memReadOffsets p sizeof_uint64_t
  r1 ++ r2 ++ r3 ++ r4 ++ r5 ++ r6


/-! ## `DecodeFrom` on objects in memory -/

/-- The call `self->DecodeFrom(buf, header)` on objects in memory: `objects`
gives the `EntryHeader` stored at each address, `self` is the address of the
receiver and `header` the address the reference parameter is bound to.  Every
assignment of the function goes through the reference `header`, so the object at
that address is the only one stored to; `self` and `header` may be the same
address.  The result is the returned `Status` with the objects after the call. -/
def EntryHeader.DecodeFromAt (o : ByteOrder) (objects : Nat → EntryHeader)
    (self header : Nat) (buf : List Byte) : Option (Status × (Nat → EntryHeader)) :=
  (EntryHeader.DecodeFrom o (objects self) buf (objects header)).map
    fun r => (r.1, Function.update objects header r.2)


/-! ## TableHeader, OffsetArray and the operations the specification adds

`format.h` declares `struct TableHeader` and `struct OffsetArray` and no
function on them.  The compatibility test and the index operations below follow
the specification (sections 4.2 and 4.3). -/

/-- The data members of `struct TableHeader` (format.h). -/
structure TableHeader where
  checksum_ : Nat
  majorVersion_ : Nat
  minorVersion_ : Nat
  revisionVersion_ : Nat
  buildVersion_ : Nat
  majorDataFormatVersion_ : Nat
  minorDataFormatVersion_ : Nat
deriving DecidableEq, Repr

/-- Modelled from the spec: `is_compatible(header, supported_major,
supported_minor)`, which the source does not define.  It holds when
`major_data_format_version == supported_major` and
`minor_data_format_version <= supported_minor`. -/
def is_compatible (header : TableHeader) (supported_major supported_minor : Nat) : Bool :=
  decide (header.majorDataFormatVersion_ = supported_major) &&
    decide (header.minorDataFormatVersion_ ≤ supported_minor)

/-- Modelled from the spec: the code of the `Status` with which a reader that
supports `(supported_major, supported_minor)` opens a file with this header,
which the source does not define: a header that is not compatible is refused
with `Invalid`. -/
def openCode (header : TableHeader) (supported_major supported_minor : Nat) : Status.Code :=
  if is_compatible header supported_major supported_minor then Status.Code.OK
  else Status.Code.Invalid

/-- The file header of the scenario of the specification: data format version
1.0, every other field zero. -/
def scenarioHeader : TableHeader :=
  { checksum_ := 0, majorVersion_ := 0, minorVersion_ := 0, revisionVersion_ := 0,
    buildVersion_ := 0, majorDataFormatVersion_ := 1, minorDataFormatVersion_ := 0 }

/-- The data members of `struct OffsetArray` (format.h): one entry of the index. -/
structure OffsetArray where
  hash_ : Nat
  offset_ : Nat
deriving DecidableEq, Repr

/-- Modelled from the spec: one element `(key_hash, key_bytes, offset)` of the
input of `build`, which the source does not define. -/
structure Record where
  key_hash : Nat
  key_bytes : List Byte
  offset : Nat
deriving DecidableEq, Repr

/-- Modelled from the spec: the first half of `build`, absent from the source:
of the records in log order, keep for each exact key the last one (later records
shadow earlier ones). -/
def retainLast : List Record → List Record
  | [] => []
  | r :: rs =>
    if rs.any (fun r1 => decide (r1.key_bytes = r.key_bytes)) then retainLast rs
    else r :: retainLast rs

/-- Modelled from the spec: the order of the index, absent from the source:
by `key_hash`, ties broken by ascending offset. -/
def OffsetArray.le (a b : OffsetArray) : Prop :=
  a.hash_ < b.hash_ ∨ (a.hash_ = b.hash_ ∧ a.offset_ ≤ b.offset_)

instance : DecidableRel OffsetArray.le := fun a b => by
  unfold OffsetArray.le
  infer_instance

/-- Modelled from the spec: `build(records)`, absent from the source: the
retained records as `(key_hash, offset)` entries, sorted by `OffsetArray.le`. -/
def build (records : List Record) : List OffsetArray :=
  List.insertionSort OffsetArray.le
    ((retainLast records).map fun r => { hash_ := r.key_hash, offset_ := r.offset })

/-- Modelled from the spec: the binary search of `lookup`, absent from the
source: the lowest position in `[lo, hi]` from which on no entry has a hash below
`key_hash`, found by halving; `fuel` bounds the number of halvings. -/
def lowerBound (index : List OffsetArray) (key_hash : Nat) : Nat → Nat → Nat → Nat
  | 0, lo, _ => lo
  | fuel + 1, lo, hi =>
    if lo < hi then
      let mid := (lo + hi) / 2
      if (index.getD mid { hash_ := 0, offset_ := 0 }).hash_ < key_hash then
        lowerBound index key_hash fuel (mid + 1) hi
      else
        lowerBound index key_hash fuel lo mid
    else lo

/-- Modelled from the spec: the linear scan of `lookup`, absent from the source:
forward while the entry has hash `key_hash`, until the key that `resolver` reads
at the entry's offset is `key_bytes`; the result is that entry's offset. -/
def scanForward (resolver : Nat → List Byte) (key_hash : Nat) (key_bytes : List Byte) :
    List OffsetArray → Option Nat
  | [] => none
  | e :: es =>
    if e.hash_ = key_hash then
      if resolver e.offset_ = key_bytes then some e.offset_
      else scanForward resolver key_hash key_bytes es
    else none

/-- Modelled from the spec: `lookup(index, key_hash, key_bytes, resolver)`,
absent from the source: binary search for the lowest entry with hash `key_hash`,
then the linear scan from there.  The search starts with `lo = 0`,
`hi = index.length` and as much fuel as there are entries. -/
def lookup (index : List OffsetArray) (key_hash : Nat) (key_bytes : List Byte)
    (resolver : Nat → List Byte) : Option Nat :=
  scanForward resolver key_hash key_bytes
    (index.drop (lowerBound index key_hash index.length 0 index.length))

/-- The most recent record with key `key_bytes` in a log given oldest first. -/
def mostRecent (records : List Record) (key_bytes : List Byte) : Option Record :=
  records.reverse.find? fun r => decide (r.key_bytes = key_bytes)

/-- A log of five records: keys `[1]` and `[2]` share hash 7, key `[1]` is
written twice, key `[3]` has hash 5 and key `[4]` hash 9. -/
def sampleLog : List Record :=
  [{ key_hash := 7, key_bytes := [1], offset := 0 },
   { key_hash := 9, key_bytes := [4], offset := 50 },
   { key_hash := 7, key_bytes := [2], offset := 100 },
   { key_hash := 5, key_bytes := [3], offset := 150 },
   { key_hash := 7, key_bytes := [1], offset := 200 }]

/-- The hash function of the sample log; the key `[9]`, which is not in the
log, also has hash 7. -/
def sampleHash (key_bytes : List Byte) : Nat :=
  if key_bytes = [3] then 5 else if key_bytes = [4] then 9 else 7

/-- The resolver of the sample log: the key of the record at an offset. -/
def sampleResolver (offset : Nat) : List Byte :=
  if offset = 0 then [1] else if offset = 50 then [4] else if offset = 100 then [2]
  else if offset = 150 then [3] else if offset = 200 then [1] else []


/-! ## Lemmas on byte strings -/

theorem fromLittle_eq_sum (bs : List Byte) :
    fromLittle bs = ((List.range bs.length).map fun i => (bs.getD i 0).val * 256 ^ i).sum := by
  induction bs with
  | nil => rfl
  | cons b bs ih =>
    rw [fromLittle, ih, List.length_cons, List.sum_range_succ', ← List.sum_map_mul_left]
    simp only [List.getD_cons_zero, pow_zero, mul_one, Nat.succ_eq_add_one, List.getD_cons_succ]
    congr 2
    apply List.map_congr_left
    intro i _
    ring

theorem length_slice (buf : List Byte) (a n : Nat) (h : a + n ≤ buf.length) :
    ((buf.drop a).take n).length = n := by
  rw [List.length_take, List.length_drop]
  omega

theorem getD_slice (buf : List Byte) (a n i : Nat) (hi : i < n) :
    ((buf.drop a).take n).getD i 0 = buf.getD (a + i) 0 := by
  simp only [List.getD_eq_getElem?_getD, List.getElem?_take_of_lt hi, List.getElem?_drop]

theorem getD_reverse_slice (buf : List Byte) (a n i : Nat) (h : a + n ≤ buf.length)
    (hi : i < n) :
    ((buf.drop a).take n).reverse.getD i 0 = buf.getD (a + (n - 1 - i)) 0 := by
  have hlen := length_slice buf a n h
  rw [List.getD_eq_getElem?_getD, List.getElem?_reverse (by omega), hlen,
    ← List.getD_eq_getElem?_getD, getD_slice buf a n (n - 1 - i) (by omega)]

theorem objectValue_slice (o : ByteOrder) (buf : List Byte) (a n : Nat)
    (h : a + n ≤ buf.length) :
    objectValue o ((buf.drop a).take n) = storedAt o buf a n := by
  have hlen := length_slice buf a n h
  cases o with
  | little =>
    simp only [objectValue, storedAt]
    rw [fromLittle_eq_sum, hlen]
    congr 1
    apply List.map_congr_left
    intro i hi
    rw [getD_slice buf a n i (List.mem_range.mp hi)]
  | big =>
    simp only [objectValue, storedAt]
    rw [fromLittle_eq_sum, List.length_reverse, hlen]
    congr 1
    apply List.map_congr_left
    intro i hi
    rw [getD_reverse_slice buf a n i h (List.mem_range.mp hi)]

theorem decode_eq_storedAt (o : ByteOrder) (size : Nat) (buf : List Byte) (p : Nat)
    (h : p + size ≤ buf.length) : decode o size buf p = some (storedAt o buf p size) := by
  simp only [decode, memRead, h, if_true, Option.map_some', objectValue_slice o buf p size h]

theorem decode_eq_none (o : ByteOrder) (size : Nat) (buf : List Byte) (p : Nat)
    (h : buf.length < p + size) : decode o size buf p = none := by
  simp only [decode, memRead, Nat.not_le.mpr h, if_false, Option.map_none']

theorem decodeFrom_of_le (o : ByteOrder) (self : EntryHeader) (buf : List Byte)
    (header : EntryHeader) (h : 40 ≤ buf.length) :
    EntryHeader.DecodeFrom o self buf header
      = some (Status.default,
          { checksum_ := storedAt o buf 0 4,
            flags_ := storedAt o buf 4 4,
            sizeKey_ := storedAt o buf 8 8,
            sizeValue_ := storedAt o buf 16 8,
            sizeValueCompressed_ := storedAt o buf 24 8,
            hash_ := storedAt o buf 32 8 }) := by
  simp only [EntryHeader.DecodeFrom, sizeof_uint32_t, sizeof_uint64_t, Nat.zero_add,
    Nat.reduceAdd]
  rw [decode_eq_storedAt o 4 buf 0 (by omega), decode_eq_storedAt o 4 buf 4 (by omega),
    decode_eq_storedAt o 8 buf 8 (by omega), decode_eq_storedAt o 8 buf 16 (by omega),
    decode_eq_storedAt o 8 buf 24 (by omega), decode_eq_storedAt o 8 buf 32 (by omega)]
  rfl

theorem decodeFrom_of_lt (o : ByteOrder) (self : EntryHeader) (buf : List Byte)
    (header : EntryHeader) (h : buf.length < 40) :
    EntryHeader.DecodeFrom o self buf header = none := by
  simp only [EntryHeader.DecodeFrom, sizeof_uint32_t, sizeof_uint64_t, Nat.zero_add,
    Nat.reduceAdd]
  by_cases h4 : 0 + 4 ≤ buf.length
  · rw [decode_eq_storedAt o 4 buf 0 h4]
    by_cases h8 : 4 + 4 ≤ buf.length
    · rw [decode_eq_storedAt o 4 buf 4 h8]
      by_cases h16 : 8 + 8 ≤ buf.length
      · rw [decode_eq_storedAt o 8 buf 8 h16]
        by_cases h24 : 16 + 8 ≤ buf.length
        · rw [decode_eq_storedAt o 8 buf 16 h24]
          by_cases h32 : 24 + 8 ≤ buf.length
          · rw [decode_eq_storedAt o 8 buf 24 h32,
              decode_eq_none o 8 buf 32 (by omega)]
            rfl
          · rw [decode_eq_none o 8 buf 24 (by omega)]
            rfl
        · rw [decode_eq_none o 8 buf 16 (by omega)]
          rfl
      · rw [decode_eq_none o 8 buf 8 (by omega)]
        rfl
    · rw [decode_eq_none o 4 buf 4 (by omega)]
      rfl
  · rw [decode_eq_none o 4 buf 0 (by omega)]
    rfl

/-! ## Lemmas on the thread pool -/

theorem addTask_illFormed (ndebug : Bool) (atAssert atLock : ThreadPool) (f : Task) :
    AddTask ndebug atAssert atLock f = AddTaskResult.illFormed atAssert := rfl

theorem addTask_locked_of_free (s : ThreadPool) (task : Task) (hfree : s.mtx_ = none) :
    AddTask.locked s task
      = AddTaskResult.returned { s with tasks_ := s.tasks_ ++ [task] } := by
  cases s
  simp only at hfree
  subst hfree
  rfl

theorem workerIteration_of_cons (i : Nat) (s : ThreadPool) (task : Task) (rest : List Task)
    (hfree : s.mtx_ = none) (hq : s.tasks_ = task :: rest) :
    workerIteration i s = WorkerStep.ran task task.call { s with tasks_ := rest } := by
  cases s
  simp only at hfree hq
  subst hfree hq
  rfl

theorem workerIteration_of_empty_running (i : Nat) (s : ThreadPool) (hfree : s.mtx_ = none)
    (hq : s.tasks_ = []) (hrun : s.stoped_ = false) :
    workerIteration i s = WorkerStep.frontOfEmpty { s with mtx_ := some (ThreadId.worker i) } := by
  cases s
  simp only at hfree hq hrun
  subst hfree hq hrun
  rfl

theorem workerIteration_of_empty_stopped (i : Nat) (s : ThreadPool) (hfree : s.mtx_ = none)
    (hq : s.tasks_ = []) (hstop : s.stoped_ = true) :
    workerIteration i s
      = WorkerStep.exited { s with threads_ := s.threads_.set i ThreadState.finished } := by
  cases s
  simp only at hfree hq hstop
  subst hfree hq hstop
  rfl

theorem workerIteration_of_locked (i : Nat) (s : ThreadPool) (t : ThreadId)
    (hheld : s.mtx_ = some t) : workerIteration i s = WorkerStep.blockedOnLock s := by
  simp only [workerIteration, hheld]

theorem steps_submit (ts : List Task) (r : Run) (hrun : r.pool.stoped_ = false)
    (hfree : r.pool.mtx_ = none) :
    r.steps (ts.map Event.addTask)
      = some { pool := { r.pool with tasks_ := r.pool.tasks_ ++ ts },
               submitted := r.submitted ++ ts,
               dequeued := r.dequeued } := by
  induction ts generalizing r with
  | nil => simp [Run.steps]
  | cons t ts ih =>
    have hstep : r.step (Event.addTask t)
        = some { pool := { r.pool with tasks_ := r.pool.tasks_ ++ [t] },
                 submitted := r.submitted ++ [t],
                 dequeued := r.dequeued } := by
      simp only [Run.step]
      rw [if_neg (by rw [hrun]; exact Bool.false_ne_true),
        addTask_locked_of_free r.pool t hfree]
    simp only [List.map_cons, Run.steps, hstep, Option.some_bind]
    refine (ih { pool := { r.pool with tasks_ := r.pool.tasks_ ++ [t] },
                 submitted := r.submitted ++ [t],
                 dequeued := r.dequeued } hrun hfree).trans ?_
    simp

/-- C1 (defect in `EncodeTo`): encoding `sampleHeader` (fields 1, 2, 3, 4, 5, 6)
into a buffer of 40 zero bytes and decoding that buffer does not give the
header back.  Every `encode` call of `EncodeTo` writes at offset 0, so only the
last field written, the key hash 6, is in the buffer: decoding yields checksum 6
on a little-endian host, flags 6 on a big-endian host, and zero elsewhere. -/
theorem encodeTo_decodeFrom_sample (o : ByteOrder) :
    (EntryHeader.EncodeTo o sampleHeader (zeroBuffer 40)).bind
        (fun r => EntryHeader.DecodeFrom o sampleHeader r.2 zeroHeader)
      = some (Status.default,
          match o with
          | ByteOrder.little => { zeroHeader with checksum_ := 6 }
          | ByteOrder.big => { zeroHeader with flags_ := 6 })
    ∧ (EntryHeader.EncodeTo o sampleHeader (zeroBuffer 40)).bind
        (fun r => EntryHeader.DecodeFrom o sampleHeader r.2 zeroHeader)
      ≠ some (Status.default, sampleHeader) := by
  cases o <;> exact ⟨rfl, by decide⟩

/-- C2 as stated fails: on the buffer of 39 zero bytes `DecodeFrom` does not
return a `Status` that is not OK and has a non-empty message. -/
theorem decodeFrom_short_not_invalid :
    ¬ ∃ st out, EntryHeader.DecodeFrom ByteOrder.little zeroHeader (zeroBuffer 39) zeroHeader
        = some (st, out) ∧ st.OK = false ∧ st.Message ≠ "" := by
  rintro ⟨st, out, h, -, -⟩
  rw [decodeFrom_of_lt ByteOrder.little zeroHeader (zeroBuffer 39) zeroHeader (by decide)] at h
  exact Option.noConfusion h

/-- C2 amended: `DecodeFrom` has no length check.  It returns exactly when the
buffer has at least 40 bytes (on a shorter buffer one of its reads leaves the
buffer, so no `Status` is produced), and every `Status` it returns is `Status{}`,
which is OK and has an empty message. -/
theorem decodeFrom_status (o : ByteOrder) (self : EntryHeader) (buf : List Byte)
    (header : EntryHeader) :
    ((EntryHeader.DecodeFrom o self buf header).isSome = true ↔ 40 ≤ buf.length) ∧
    (buf.length < 40 → EntryHeader.DecodeFrom o self buf header = none) ∧
    (∀ st out, EntryHeader.DecodeFrom o self buf header = some (st, out) →
      st = Status.default ∧ st.OK = true ∧ st.Message = "") := by
  refine ⟨?_, decodeFrom_of_lt o self buf header, ?_⟩
  · rcases Nat.lt_or_ge buf.length 40 with h | h
    · rw [decodeFrom_of_lt o self buf header h]
      simp only [Option.isSome_none, Bool.false_eq_true, false_iff, Nat.not_le]
      exact h
    · rw [decodeFrom_of_le o self buf header h]
      simp only [Option.isSome_some, true_iff]
      exact h
  · intro st out hd
    rcases Nat.lt_or_ge buf.length 40 with h | h
    · rw [decodeFrom_of_lt o self buf header h] at hd
      exact Option.noConfusion hd
    · rw [decodeFrom_of_le o self buf header h] at hd
      have hst : Status.default = st := congrArg Prod.fst (Option.some.inj hd)
      subst hst
      exact ⟨rfl, rfl, rfl⟩

/-- Witness for C2 amended: a 39-byte buffer gives no result, the
40-byte zero buffer gives `Status{}`. -/
theorem decodeFrom_status_witness :
    (zeroBuffer 39).length < 40 ∧
    EntryHeader.DecodeFrom ByteOrder.little zeroHeader (zeroBuffer 39) sampleHeader = none ∧
    EntryHeader.DecodeFrom ByteOrder.little zeroHeader (zeroBuffer 40) sampleHeader
      = some (Status.default, zeroHeader) ∧
    Status.default.OK = true ∧ Status.default.Message = "" :=
  ⟨by decide,
    (decodeFrom_status ByteOrder.little zeroHeader (zeroBuffer 39) sampleHeader).2.1 (by decide),
    by decide,
    ((decodeFrom_status ByteOrder.little zeroHeader (zeroBuffer 40) sampleHeader).2.2
      Status.default zeroHeader (by decide)).2⟩

/-- C3 (defect in `EncodeTo`): on `sampleHeader` and a buffer of 40 zero bytes,
`EncodeTo` leaves the 8-byte representation of the key hash 6 at offsets 0 to 7
and zero bytes at offsets 8 to 39, which is not the six fields laid out one
after the other. -/
theorem encodeTo_sample_layout (o : ByteOrder) :
    EntryHeader.EncodeTo o sampleHeader (zeroBuffer 40)
      = some (0, objectBytes o 8 6 ++ zeroBuffer 32)
    ∧ EntryHeader.EncodeTo o sampleHeader (zeroBuffer 40)
      ≠ some (0, objectBytes o 4 1 ++ objectBytes o 4 2 ++ objectBytes o 8 3
          ++ objectBytes o 8 4 ++ objectBytes o 8 5 ++ objectBytes o 8 6) := by
  cases o <;> exact ⟨by decide, by decide⟩

/-- C4: on every buffer of at least 40 bytes `DecodeFrom` returns, and the six
fields of `header` are then the unsigned integers stored at the byte ranges
[0,4), [4,8), [8,16), [16,24), [24,32) and [32,40), in the order checksum,
flags, key size, value size, compressed size, key hash, all read in the one
byte order `o` of the host. -/
theorem decodeFrom_layout (o : ByteOrder) (self : EntryHeader) (buf : List Byte)
    (header : EntryHeader) (h : 40 ≤ buf.length) :
    EntryHeader.DecodeFrom o self buf header
      = some (Status.default,
          { checksum_ := storedAt o buf 0 4,
            flags_ := storedAt o buf 4 4,
            sizeKey_ := storedAt o buf 8 8,
            sizeValue_ := storedAt o buf 16 8,
            sizeValueCompressed_ := storedAt o buf 24 8,
            hash_ := storedAt o buf 32 8 }) :=
  decodeFrom_of_le o self buf header h

/-- Witness for C4 on the 48-byte buffer `0, 1, ..., 47`,
little-endian: the checksum is `0x03020100`, the flags are `0x07060504`
(read big-endian, bytes 0 to 3 would be `0x00010203`). -/
theorem decodeFrom_layout_witness :
    40 ≤ countingBuffer.length ∧
    EntryHeader.DecodeFrom ByteOrder.little zeroHeader countingBuffer zeroHeader
      = some (Status.default,
          { checksum_ := storedAt ByteOrder.little countingBuffer 0 4,
            flags_ := storedAt ByteOrder.little countingBuffer 4 4,
            sizeKey_ := storedAt ByteOrder.little countingBuffer 8 8,
            sizeValue_ := storedAt ByteOrder.little countingBuffer 16 8,
            sizeValueCompressed_ := storedAt ByteOrder.little countingBuffer 24 8,
            hash_ := storedAt ByteOrder.little countingBuffer 32 8 }) ∧
    storedAt ByteOrder.little countingBuffer 0 4 = 0x03020100 ∧
    storedAt ByteOrder.little countingBuffer 4 4 = 0x07060504 ∧
    storedAt ByteOrder.big countingBuffer 0 4 = 0x00010203 :=
  ⟨by decide,
    decodeFrom_layout ByteOrder.little zeroHeader countingBuffer zeroHeader (by decide),
    by decide, by decide, by decide⟩

/-- C5: `IsDeleted()` is bit 0 of `flags_` and `IsCompressed()` is bit 1 of
`flags_`; no other bit and no other field enters. -/
theorem flag_tests_are_bit_tests (h : EntryHeader) :
    h.IsDeleted = h.flags_.testBit 0 ∧ h.IsCompressed = h.flags_.testBit 1 := by
  constructor
  · simp only [EntryHeader.IsDeleted, EntryType.Deleted, Nat.and_one_is_mod,
      Nat.testBit_zero]
    rcases Nat.mod_two_eq_zero_or_one h.flags_ with h0 | h1
    · simp [h0]
    · simp [h1]
  · have h2 := Nat.and_two_pow h.flags_ 1
    simp only [EntryHeader.IsCompressed, EntryType.Compressed]
    change (h.flags_ &&& 2 ^ 1 != 0) = h.flags_.testBit 1
    rw [h2]
    cases h.flags_.testBit 1 <;> simp

/-! ## Status (claims C6 and C7) -/

/-- C6 (defect in the constructor): a `Status` built with any code, `Invalid`
included, reports `OK()`; the constructor stores `Code::OK` whatever its `code`
argument is. -/
theorem status_construct_reports_ok (c : Status.Code) (m : String) :
    (Status.construct c m).OK = true
    ∧ (Status.construct Status.Code.Invalid "buffer too short").OK = true := by
  exact ⟨rfl, rfl⟩

/-- C7 as stated fails: `Status(Code::OK, "x")` reports `OK()` and its message
is not empty. -/
theorem status_ok_with_message :
    ¬ ((Status.construct Status.Code.OK "x").OK = true →
        (Status.construct Status.Code.OK "x").Message = "") := by
  decide

/-- C7 amended: `Message()` of a constructed `Status` is the message given to
the constructor, whatever the code; the default-constructed `Status{}` is OK and
its message is empty. -/
theorem status_message_stored (c : Status.Code) (m : String) :
    (Status.construct c m).Message = m
    ∧ Status.default.OK = true ∧ Status.default.Message = "" :=
  ⟨rfl, rfl, rfl⟩

/-! ## Thread pool (claims C8 to C10) -/

/-- C9 (defect in `AddTask`): no call of `AddTask` puts a task in the queue.
For every build, every pool and every callable the argument `std::forward(f)` of
`tasks_.emplace` has no value, the call is ill-formed and the pool is as it was;
the locked part of the body, which would put the task at the back of the queue,
is never reached. -/
theorem addTask_never_enqueues (ndebug : Bool) (atAssert atLock : ThreadPool) (f : Task) :
    forwardUndeduced f = none ∧
    AddTask ndebug atAssert atLock f = AddTaskResult.illFormed atAssert ∧
    (∀ s1, AddTask ndebug atAssert atLock f ≠ AddTaskResult.returned s1) ∧
    AddTask.locked (ThreadPool.construct 1) f
      = AddTaskResult.returned { ThreadPool.construct 1 with tasks_ := [f] } := by
  refine ⟨rfl, rfl, ?_, rfl⟩
  intro s1 h
  rw [addTask_illFormed] at h
  exact AddTaskResult.noConfusion h

/-- C10 (defect in the wait predicate): in the state left by the constructor
(queue empty, pool running) the first iteration of any worker goes through
`cv_.wait`, whose predicate `tasks_.empty()` already holds, and reaches
`tasks_.front()` with the queue empty; and no worker iteration, in any state,
ends up waiting. -/
theorem worker_front_of_empty_queue (nThreads : Int) (i : Nat) :
    workerIteration i (ThreadPool.construct nThreads)
      = WorkerStep.frontOfEmpty
          { ThreadPool.construct nThreads with mtx_ := some (ThreadId.worker i) }
    ∧ (ThreadPool.construct nThreads).tasks_ = []
    ∧ (ThreadPool.construct nThreads).stoped_ = false
    ∧ cvWait (ThreadPool.construct nThreads).tasks_.isEmpty = true
    ∧ ∀ s s1 : ThreadPool, workerIteration i s ≠ WorkerStep.waiting s1 := by
  refine ⟨workerIteration_of_empty_running i _ rfl rfl rfl, rfl, rfl, rfl, ?_⟩
  intro s s1 h
  cases hm : s.mtx_ with
  | some t => rw [workerIteration_of_locked i s t hm] at h; exact WorkerStep.noConfusion h
  | none =>
    cases hq : s.tasks_ with
    | cons t rest =>
      rw [workerIteration_of_cons i s t rest hm hq] at h
      exact WorkerStep.noConfusion h
    | nil =>
      cases hs : s.stoped_ with
      | true =>
        rw [workerIteration_of_empty_stopped i s hm hq hs] at h
        exact WorkerStep.noConfusion h
      | false =>
        rw [workerIteration_of_empty_running i s hm hq hs] at h
        exact WorkerStep.noConfusion h

/-! ## Lemmas for claims C11 to C19 -/

theorem readOffsets_eq_range : EntryHeader.DecodeFrom.readOffsets = List.range 40 := by
  decide

/-- C11 as stated fails: on the buffer of 39 zero bytes not every offset that
`DecodeFrom` reads is inside the buffer (it reads offset 39). -/
theorem decodeFrom_reads_past_short_buffer :
    ¬ ∀ i ∈ EntryHeader.DecodeFrom.readOffsets, i < (zeroBuffer 39).length := by
  decide

/-- C11 amended: `DecodeFrom` reads the offsets 0 to 39 in this order, whatever
the buffer.  On a buffer of at least 40 bytes every one of them is inside the
buffer and the call returns; on a shorter buffer the offset just past its last
byte is among them and the call has no defined result. -/
theorem decodeFrom_reads (o : ByteOrder) (self : EntryHeader) (buf : List Byte)
    (header : EntryHeader) :
    EntryHeader.DecodeFrom.readOffsets = List.range 40 ∧
    (40 ≤ buf.length →
      (∀ i ∈ EntryHeader.DecodeFrom.readOffsets, i < buf.length) ∧
      (EntryHeader.DecodeFrom o self buf header).isSome = true) ∧
    (buf.length < 40 →
      buf.length ∈ EntryHeader.DecodeFrom.readOffsets ∧
      EntryHeader.DecodeFrom o self buf header = none) := by
  refine ⟨readOffsets_eq_range, ?_, ?_⟩
  · intro h
    constructor
    · intro i hi
      rw [readOffsets_eq_range, List.mem_range] at hi
      omega
    · rw [decodeFrom_of_le o self buf header h]
      rfl
  · intro h
    constructor
    · rw [readOffsets_eq_range, List.mem_range]
      exact h
    · exact decodeFrom_of_lt o self buf header h

/-- Witness for C11 amended: all reads are inside the 48-byte counting buffer,
and offset 39 is read on the buffer of 39 zero bytes. -/
theorem decodeFrom_reads_witness :
    40 ≤ countingBuffer.length ∧
    (∀ i ∈ EntryHeader.DecodeFrom.readOffsets, i < countingBuffer.length) ∧
    (zeroBuffer 39).length < 40 ∧
    (zeroBuffer 39).length ∈ EntryHeader.DecodeFrom.readOffsets :=
  ⟨by decide,
    ((decodeFrom_reads ByteOrder.little zeroHeader countingBuffer zeroHeader).2.1
      (by decide)).1,
    by decide,
    ((decodeFrom_reads ByteOrder.little zeroHeader (zeroBuffer 39) zeroHeader).2.2
      (by decide)).1⟩

/-- C13 (defect in `Join`): with one worker and any tasks `ts` submitted, `Join`
takes `mtx_`, sets `stoped_` and blocks in `t.join()` of worker 0 with all of
`ts` still queued; while it is blocked it owns `mtx_`, so every worker iteration
is blocked on the lock and no task is ever run.  With no worker at all `Join`
returns, and the tasks are still in the queue. -/
theorem join_blocks_with_queued_tasks (ts : List Task) :
    (Run.start (ThreadPool.construct 1)).steps (ts.map Event.addTask)
      = some { pool := { ThreadPool.construct 1 with tasks_ := ts },
               submitted := ts,
               dequeued := [] } ∧
    Join { ThreadPool.construct 1 with tasks_ := ts }
      = JoinResult.blockedOnJoin 0
          { ThreadPool.construct 1 with
            tasks_ := ts, mtx_ := some ThreadId.caller, stoped_ := true } ∧
    (∀ i, workerIteration i
        { ThreadPool.construct 1 with
          tasks_ := ts, mtx_ := some ThreadId.caller, stoped_ := true }
      = WorkerStep.blockedOnLock
        { ThreadPool.construct 1 with
          tasks_ := ts, mtx_ := some ThreadId.caller, stoped_ := true }) ∧
    Join { ThreadPool.construct 0 with tasks_ := ts }
      = JoinResult.returned { ThreadPool.construct 0 with tasks_ := ts, stoped_ := true } := by
  refine ⟨?_, rfl, fun i => rfl, rfl⟩
  rw [steps_submit ts (Run.start (ThreadPool.construct 1)) rfl rfl]
  simp [Run.start, ThreadPool.construct]

theorem toLittle_length (n v : Nat) : (toLittle n v).length = n := by
  induction n generalizing v with
  | zero => rfl
  | succ n ih => simp only [toLittle, List.length_cons, ih]

theorem fromLittle_toLittle (n v : Nat) : fromLittle (toLittle n v) = v % 256 ^ n := by
  induction n generalizing v with
  | zero => simp [toLittle, fromLittle, Nat.mod_one]
  | succ n ih =>
    simp only [toLittle, fromLittle, ih]
    rw [pow_succ, mul_comm (256 ^ n) 256, Nat.mod_mul]

theorem objectBytes_length (o : ByteOrder) (n v : Nat) : (objectBytes o n v).length = n := by
  cases o with
  | little => exact toLittle_length n v
  | big => simp only [objectBytes, List.length_reverse, toLittle_length]

theorem objectValue_objectBytes (o : ByteOrder) (n v : Nat) :
    objectValue o (objectBytes o n v) = v % 256 ^ n := by
  cases o with
  | little => exact fromLittle_toLittle n v
  | big => simp only [objectValue, objectBytes, List.reverse_reverse, fromLittle_toLittle]

theorem memWrite_of_le (buf : List Byte) (p : Nat) (src : List Byte)
    (h : p + src.length ≤ buf.length) :
    memWrite buf p src = some (buf.take p ++ src ++ buf.drop (p + src.length)) := by
  simp only [memWrite, h, if_true]

theorem memWrite_of_lt (buf : List Byte) (p : Nat) (src : List Byte)
    (h : buf.length < p + src.length) : memWrite buf p src = none := by
  simp only [memWrite, Nat.not_le.mpr h, if_false]

theorem written_length (buf : List Byte) (p : Nat) (src : List Byte)
    (h : p + src.length ≤ buf.length) :
    (buf.take p ++ src ++ buf.drop (p + src.length)).length = buf.length := by
  simp only [List.length_append, List.length_take, List.length_drop]
  omega

theorem written_slice (buf : List Byte) (p : Nat) (src : List Byte)
    (h : p + src.length ≤ buf.length) :
    ((buf.take p ++ src ++ buf.drop (p + src.length)).drop p).take src.length = src := by
  have hp : (buf.take p).length = p := by
    rw [List.length_take]
    omega
  rw [List.append_assoc]
  have hd : (buf.take p ++ (src ++ buf.drop (p + src.length))).drop p
      = src ++ buf.drop (p + src.length) := by
    have := List.drop_left (buf.take p) (src ++ buf.drop (p + src.length))
    rw [hp] at this
    exact this
  rw [hd, List.take_left]

theorem written_frame (buf : List Byte) (p : Nat) (src : List Byte)
    (h : p + src.length ≤ buf.length) (i : Nat) (hi : i < p ∨ p + src.length ≤ i) :
    (buf.take p ++ src ++ buf.drop (p + src.length)).getD i 0 = buf.getD i 0 := by
  have hp : (buf.take p).length = p := by
    rw [List.length_take]
    omega
  simp only [List.getD_eq_getElem?_getD]
  congr 1
  rcases hi with hi | hi
  · rw [List.append_assoc, List.getElem?_append_left (by omega),
      List.getElem?_take_of_lt hi]
  · rw [List.getElem?_append_right (by simp only [List.length_append, hp]; omega)]
    simp only [List.length_append, hp, List.getElem?_drop]
    congr 1
    omega

theorem encode_decode (o : ByteOrder) (size v : Nat) (buf : List Byte) (p : Nat)
    (hv : v < 256 ^ size) (h : p + size ≤ buf.length) :
    ∃ out, encode o size v buf p = some out ∧
      decode o size out p = some v ∧
      out.length = buf.length ∧
      (out.drop p).take size = objectBytes o size v ∧
      ∀ i, i < p ∨ p + size ≤ i → out.getD i 0 = buf.getD i 0 := by
  have hl := objectBytes_length o size v
  have h1 : p + (objectBytes o size v).length ≤ buf.length := by
    rw [hl]
    exact h
  have hw : encode o size v buf p
      = some (buf.take p ++ objectBytes o size v ++ buf.drop (p + size)) := by
    simp only [encode]
    rw [memWrite_of_le buf p _ h1, hl]
  have hs := written_slice buf p _ h1
  have hlen := written_length buf p _ h1
  have hf := fun i => written_frame buf p _ h1 i
  rw [hl] at hs hlen hf
  refine ⟨buf.take p ++ objectBytes o size v ++ buf.drop (p + size), hw, ?_, hlen, hs, hf⟩
  simp only [decode, memRead]
  rw [if_pos (by rw [hlen]; exact h), Option.map_some', hs, objectValue_objectBytes,
    Nat.mod_eq_of_lt hv]

theorem encode_zero (o : ByteOrder) (size v : Nat) (buf : List Byte)
    (h : size ≤ buf.length) :
    encode o size v buf 0 = some (objectBytes o size v ++ buf.drop size) := by
  have hl := objectBytes_length o size v
  simp only [encode]
  rw [memWrite_of_le buf 0 _ (by rw [hl]; omega)]
  simp only [List.take_zero, List.nil_append, Nat.zero_add, hl]

theorem encode_zero_none (o : ByteOrder) (size v : Nat) (buf : List Byte)
    (h : buf.length < size) : encode o size v buf 0 = none := by
  have hl := objectBytes_length o size v
  simp only [encode]
  exact memWrite_of_lt buf 0 _ (by rw [hl]; omega)

theorem drop_objectBytes_append (o : ByteOrder) (m v k : Nat) (r : List Byte) :
    (objectBytes o m v ++ r).drop (m + k) = r.drop k := by
  have := @List.drop_append _ (objectBytes o m v) r k
  rw [objectBytes_length] at this
  exact this

theorem encodeTo_of_le (o : ByteOrder) (h : EntryHeader) (buf : List Byte)
    (hlen : 8 ≤ buf.length) :
    EntryHeader.EncodeTo o h buf = some (0, objectBytes o 8 h.hash_ ++ buf.drop 8) := by
  have l4 : (buf.drop 4).length = buf.length - 4 := List.length_drop 4 buf
  have l8 : (buf.drop 8).length = buf.length - 8 := List.length_drop 8 buf
  have d4 : ∀ v, (objectBytes o 4 v ++ buf.drop 4).drop 4 = buf.drop 4 := fun v => by
    have := drop_objectBytes_append o 4 v 0 (buf.drop 4)
    simpa using this
  have d48 : ∀ v, (objectBytes o 4 v ++ buf.drop 4).drop 8 = buf.drop 8 := fun v => by
    have := drop_objectBytes_append o 4 v 4 (buf.drop 4)
    simpa using this
  have d8 : ∀ v, (objectBytes o 8 v ++ buf.drop 8).drop 8 = buf.drop 8 := fun v => by
    have := drop_objectBytes_append o 8 v 0 (buf.drop 8)
    simpa using this
  simp only [EntryHeader.EncodeTo, sizeof_uint32_t, sizeof_uint64_t]
  rw [encode_zero o 4 h.checksum_ buf (by omega)]
  simp only [Option.bind_eq_bind, Option.some_bind]
  rw [encode_zero o 4 h.flags_ _
    (by simp only [List.length_append, objectBytes_length, l4]; omega), d4]
  simp only [Option.some_bind]
  rw [encode_zero o 8 h.sizeKey_ _
    (by simp only [List.length_append, objectBytes_length, l4]; omega), d48]
  simp only [Option.some_bind]
  rw [encode_zero o 8 h.sizeValue_ _
    (by simp only [List.length_append, objectBytes_length, l8]; omega), d8]
  simp only [Option.some_bind]
  rw [encode_zero o 8 h.sizeValueCompressed_ _
    (by simp only [List.length_append, objectBytes_length, l8]; omega), d8]
  simp only [Option.some_bind]
  rw [encode_zero o 8 h.hash_ _
    (by simp only [List.length_append, objectBytes_length, l8]; omega), d8]
  rfl

theorem encodeTo_of_lt (o : ByteOrder) (h : EntryHeader) (buf : List Byte)
    (hlen : buf.length < 8) : EntryHeader.EncodeTo o h buf = none := by
  have l4 : (buf.drop 4).length = buf.length - 4 := List.length_drop 4 buf
  have d4 : ∀ v, (objectBytes o 4 v ++ buf.drop 4).drop 4 = buf.drop 4 := fun v => by
    have := drop_objectBytes_append o 4 v 0 (buf.drop 4)
    simpa using this
  simp only [EntryHeader.EncodeTo, sizeof_uint32_t, sizeof_uint64_t]
  by_cases h4 : 4 ≤ buf.length
  · rw [encode_zero o 4 h.checksum_ buf h4]
    simp only [Option.bind_eq_bind, Option.some_bind]
    rw [encode_zero o 4 h.flags_ _
      (by simp only [List.length_append, objectBytes_length, l4]; omega), d4]
    simp only [Option.some_bind]
    rw [encode_zero_none o 8 h.sizeKey_ _
      (by simp only [List.length_append, objectBytes_length, l4]; omega)]
    rfl
  · rw [encode_zero_none o 4 h.checksum_ buf (by omega)]
    rfl


/-! ## Claims C17 and C19 -/

/-- C17 as stated fails: on a buffer of 7 bytes `EncodeTo` does not return 0 with
some resulting buffer; its third `encode` call copies 8 bytes to offset 0 and
leaves the buffer. -/
theorem encodeTo_short_buffer :
    ¬ ∃ out, EntryHeader.EncodeTo ByteOrder.little sampleHeader (zeroBuffer 7)
      = some (0, out) := by
  rintro ⟨out, h⟩
  rw [encodeTo_of_lt ByteOrder.little sampleHeader (zeroBuffer 7) (by decide)] at h
  exact Option.noConfusion h

/-- C17 amended: on every buffer of at least 8 bytes `EncodeTo` returns 0, the
buffer keeps its length and every byte at offset 8 or above, and its first 8
bytes are the object representation of `hash_`, which decodes to `hash_` modulo
`2 ^ 64`; on a buffer of fewer than 8 bytes the call has no defined result. -/
theorem encodeTo_frame (o : ByteOrder) (h : EntryHeader) (buf : List Byte) :
    (8 ≤ buf.length →
      ∃ out, EntryHeader.EncodeTo o h buf = some (0, out) ∧
        out.length = buf.length ∧
        (∀ i, 8 ≤ i → out.getD i 0 = buf.getD i 0) ∧
        out.take 8 = objectBytes o 8 h.hash_ ∧
        decode o 8 out 0 = some (h.hash_ % 2 ^ 64)) ∧
    (buf.length < 8 → EntryHeader.EncodeTo o h buf = none) := by
  refine ⟨?_, encodeTo_of_lt o h buf⟩
  intro hlen
  have hl := objectBytes_length o 8 h.hash_
  have htake : (objectBytes o 8 h.hash_ ++ buf.drop 8).take 8 = objectBytes o 8 h.hash_ := by
    have := List.take_left (objectBytes o 8 h.hash_) (buf.drop 8)
    rw [hl] at this
    exact this
  have hlength : (objectBytes o 8 h.hash_ ++ buf.drop 8).length = buf.length := by
    simp only [List.length_append, hl, List.length_drop]
    omega
  refine ⟨objectBytes o 8 h.hash_ ++ buf.drop 8, encodeTo_of_le o h buf hlen, hlength, ?_,
    htake, ?_⟩
  · intro i hi
    simp only [List.getD_eq_getElem?_getD]
    rw [List.getElem?_append_right (by rw [hl]; exact hi), hl, List.getElem?_drop]
    congr 2
    omega
  · simp only [decode, memRead]
    rw [if_pos (by rw [hlength]; omega), Option.map_some', List.drop_zero, htake,
      objectValue_objectBytes]
    norm_num

/-- Witness for C17 amended: on the 48-byte counting buffer the call returns 0
and byte 8 is still 8; on the 7-byte zero buffer there is no result. -/
theorem encodeTo_frame_witness :
    8 ≤ countingBuffer.length ∧
    (∃ out, EntryHeader.EncodeTo ByteOrder.little sampleHeader countingBuffer = some (0, out) ∧
      out.length = countingBuffer.length ∧
      (∀ i, 8 ≤ i → out.getD i 0 = countingBuffer.getD i 0) ∧
      out.take 8 = objectBytes ByteOrder.little 8 sampleHeader.hash_ ∧
      decode ByteOrder.little 8 out 0 = some (sampleHeader.hash_ % 2 ^ 64)) ∧
    (zeroBuffer 7).length < 8 ∧
    EntryHeader.EncodeTo ByteOrder.little sampleHeader (zeroBuffer 7) = none :=
  ⟨by decide,
    (encodeTo_frame ByteOrder.little sampleHeader countingBuffer).1 (by decide),
    by decide,
    (encodeTo_frame ByteOrder.little sampleHeader (zeroBuffer 7)).2 (by decide)⟩

/-- C19: for the 4-byte and the 8-byte unsigned type, every value `v` of the
type and every pointer `buf + p` with room for the type, `encode` stores the
object representation of `v` in the `sizeof` bytes from `p` on, keeps the length
and every other byte of the buffer, and `decode` at `p` then returns `v`. -/
theorem primitive_codec_roundtrip (o : ByteOrder) (buf : List Byte) (p v : Nat) :
    (v < 2 ^ 32 → p + sizeof_uint32_t ≤ buf.length →
      ∃ out, encode o sizeof_uint32_t v buf p = some out ∧
        decode o sizeof_uint32_t out p = some v ∧
        out.length = buf.length ∧
        (out.drop p).take sizeof_uint32_t = objectBytes o sizeof_uint32_t v ∧
        ∀ i, i < p ∨ p + sizeof_uint32_t ≤ i → out.getD i 0 = buf.getD i 0) ∧
    (v < 2 ^ 64 → p + sizeof_uint64_t ≤ buf.length →
      ∃ out, encode o sizeof_uint64_t v buf p = some out ∧
        decode o sizeof_uint64_t out p = some v ∧
        out.length = buf.length ∧
        (out.drop p).take sizeof_uint64_t = objectBytes o sizeof_uint64_t v ∧
        ∀ i, i < p ∨ p + sizeof_uint64_t ≤ i → out.getD i 0 = buf.getD i 0) := by
  constructor
  · intro hv hp
    exact encode_decode o sizeof_uint32_t v buf p (by simpa [sizeof_uint32_t] using hv) hp
  · intro hv hp
    exact encode_decode o sizeof_uint64_t v buf p (by simpa [sizeof_uint64_t] using hv) hp

/-- Witness for C19: `0xDEADBEEF` written at offset 40 of the counting buffer on
a big-endian host, as a 4-byte and as an 8-byte integer. -/
theorem primitive_codec_roundtrip_witness :
    (0xDEADBEEF < 2 ^ 32 ∧ 40 + sizeof_uint32_t ≤ countingBuffer.length ∧
      ∃ out, encode ByteOrder.big sizeof_uint32_t 0xDEADBEEF countingBuffer 40 = some out ∧
        decode ByteOrder.big sizeof_uint32_t out 40 = some 0xDEADBEEF ∧
        out.length = countingBuffer.length ∧
        (out.drop 40).take sizeof_uint32_t
          = objectBytes ByteOrder.big sizeof_uint32_t 0xDEADBEEF ∧
        ∀ i, i < 40 ∨ 40 + sizeof_uint32_t ≤ i → out.getD i 0 = countingBuffer.getD i 0) ∧
    (0xDEADBEEF < 2 ^ 64 ∧ 40 + sizeof_uint64_t ≤ countingBuffer.length ∧
      ∃ out, encode ByteOrder.big sizeof_uint64_t 0xDEADBEEF countingBuffer 40 = some out ∧
        decode ByteOrder.big sizeof_uint64_t out 40 = some 0xDEADBEEF ∧
        out.length = countingBuffer.length ∧
        (out.drop 40).take sizeof_uint64_t
          = objectBytes ByteOrder.big sizeof_uint64_t 0xDEADBEEF ∧
        ∀ i, i < 40 ∨ 40 + sizeof_uint64_t ≤ i → out.getD i 0 = countingBuffer.getD i 0) :=
  ⟨⟨by decide, by decide,
      (primitive_codec_roundtrip ByteOrder.big countingBuffer 40 0xDEADBEEF).1
        (by decide) (by decide)⟩,
    ⟨by decide, by decide,
      (primitive_codec_roundtrip ByteOrder.big countingBuffer 40 0xDEADBEEF).2
        (by decide) (by decide)⟩⟩


/-! ## Claim C18 -/

theorem getD_of_take_eq (buf1 buf2 : List Byte) (k j : Nat) (hj : j < k)
    (hp : buf1.take k = buf2.take k) : buf1.getD j 0 = buf2.getD j 0 := by
  simp only [List.getD_eq_getElem?_getD]
  rw [← @List.getElem?_take_of_lt _ buf1 k j hj, ← @List.getElem?_take_of_lt _ buf2 k j hj, hp]

theorem storedAt_of_take_eq (o : ByteOrder) (buf1 buf2 : List Byte) (k a n : Nat)
    (hk : a + n ≤ k) (hp : buf1.take k = buf2.take k) :
    storedAt o buf1 a n = storedAt o buf2 a n := by
  simp only [storedAt]
  congr 1
  apply List.map_congr_left
  intro i hi
  have hi2 := List.mem_range.mp hi
  cases o with
  | little => simp only [getD_of_take_eq buf1 buf2 k (a + i) (by omega) hp]
  | big => simp only [getD_of_take_eq buf1 buf2 k (a + (n - 1 - i)) (by omega) hp]

/-- C18 as stated fails: when the output header is the receiver itself, as in
`h.DecodeFrom(buf, h)`, the receiver is modified; a receiver holding
`sampleHeader` holds the zero header after decoding 40 zero bytes. -/
theorem decodeFrom_modifies_aliased_receiver :
    (EntryHeader.DecodeFromAt ByteOrder.little (fun _ => sampleHeader) 0 0
        (zeroBuffer 40)).map (fun r => r.2 0) = some zeroHeader
    ∧ zeroHeader ≠ sampleHeader := by
  decide

/-- C18 amended: for two buffers of at least 40 bytes with the same first 40
bytes, `DecodeFrom` returns the same `Status` and the same six field values,
whatever the rest of the buffers, the prior contents of the output header and
the receiver; in memory only the object the output reference is bound to
changes, so the receiver keeps its fields whenever it is a different object. -/
theorem decodeFrom_prefix_only (o : ByteOrder) (buf1 buf2 : List Byte)
    (self1 self2 header1 header2 : EntryHeader)
    (h1 : 40 ≤ buf1.length) (h2 : 40 ≤ buf2.length) (hp : buf1.take 40 = buf2.take 40) :
    (∃ st out, EntryHeader.DecodeFrom o self1 buf1 header1 = some (st, out) ∧
      EntryHeader.DecodeFrom o self2 buf2 header2 = some (st, out)) ∧
    (∀ (objects : Nat → EntryHeader) (self header : Nat),
      ∃ st after, EntryHeader.DecodeFromAt o objects self header buf1 = some (st, after) ∧
        EntryHeader.DecodeFrom o self1 buf1 header1 = some (st, after header) ∧
        (∀ a, a ≠ header → after a = objects a) ∧
        (self ≠ header → after self = objects self)) := by
  have e1 := fun self header => decodeFrom_of_le o self buf1 header h1
  have e2 := fun self header => decodeFrom_of_le o self buf2 header h2
  constructor
  · refine ⟨_, _, e1 self1 header1, ?_⟩
    rw [e2 self2 header2,
      storedAt_of_take_eq o buf1 buf2 40 0 4 (by omega) hp,
      storedAt_of_take_eq o buf1 buf2 40 4 4 (by omega) hp,
      storedAt_of_take_eq o buf1 buf2 40 8 8 (by omega) hp,
      storedAt_of_take_eq o buf1 buf2 40 16 8 (by omega) hp,
      storedAt_of_take_eq o buf1 buf2 40 24 8 (by omega) hp,
      storedAt_of_take_eq o buf1 buf2 40 32 8 (by omega) hp]
  · intro objects self header
    refine ⟨Status.default,
      Function.update objects header
        { checksum_ := storedAt o buf1 0 4,
          flags_ := storedAt o buf1 4 4,
          sizeKey_ := storedAt o buf1 8 8,
          sizeValue_ := storedAt o buf1 16 8,
          sizeValueCompressed_ := storedAt o buf1 24 8,
          hash_ := storedAt o buf1 32 8 }, ?_, ?_, ?_, ?_⟩
    · simp only [EntryHeader.DecodeFromAt, e1 (objects self) (objects header),
        Option.map_some']
    · rw [e1 self1 header1, Function.update_same]
    · intro a ha
      exact Function.update_noteq ha _ _
    · intro ha
      exact Function.update_noteq ha _ _

/-- Witness for C18 amended: the counting buffer and its first 40 bytes decode
alike, from different receivers and output headers. -/
theorem decodeFrom_prefix_only_witness :
    40 ≤ countingBuffer.length ∧ 40 ≤ (countingBuffer.take 40).length ∧
    countingBuffer.take 40 = (countingBuffer.take 40).take 40 ∧
    ∃ st out,
      EntryHeader.DecodeFrom ByteOrder.little sampleHeader countingBuffer zeroHeader
        = some (st, out) ∧
      EntryHeader.DecodeFrom ByteOrder.little zeroHeader (countingBuffer.take 40) sampleHeader
        = some (st, out) :=
  ⟨by decide, by decide, by decide,
    (decodeFrom_prefix_only ByteOrder.little countingBuffer (countingBuffer.take 40)
      sampleHeader zeroHeader zeroHeader sampleHeader (by decide) (by decide) (by decide)).1⟩


/-! ## Lemmas on the index -/

theorem retainLast_subset (recs : List Record) (r : Record) (h : r ∈ retainLast recs) :
    r ∈ recs := by
  induction recs with
  | nil => simp [retainLast] at h
  | cons a rs ih =>
    simp only [retainLast] at h
    split at h
    · exact List.mem_cons_of_mem a (ih h)
    · rcases List.mem_cons.mp h with h | h
      · rw [h]
        exact List.mem_cons_self a rs
      · exact List.mem_cons_of_mem a (ih h)

theorem mostRecent_cons (a : Record) (rs : List Record) (K : List Byte) :
    mostRecent (a :: rs) K
      = (mostRecent rs K).or (if a.key_bytes = K then some a else none) := by
  simp only [mostRecent, List.reverse_cons, List.find?_append, List.find?_cons,
    List.find?_nil]
  congr 1
  by_cases h : a.key_bytes = K <;> simp [h]

theorem mostRecent_eq_none (rs : List Record) (K : List Byte) :
    mostRecent rs K = none ↔ ∀ r ∈ rs, r.key_bytes ≠ K := by
  simp only [mostRecent, List.find?_eq_none, List.mem_reverse, decide_eq_true_eq]

theorem mostRecent_some (rs : List Record) (K : List Byte) (r : Record)
    (h : mostRecent rs K = some r) : r ∈ rs ∧ r.key_bytes = K := by
  constructor
  · exact List.mem_reverse.mp (List.mem_of_find?_eq_some h)
  · have := List.find?_some h
    simpa using this

theorem any_same_key (rs : List Record) (K : List Byte) :
    rs.any (fun r1 => decide (r1.key_bytes = K)) = true ↔ ∃ r ∈ rs, r.key_bytes = K := by
  simp only [List.any_eq_true, decide_eq_true_eq]

theorem mostRecent_of_mem_retainLast (recs : List Record) (r : Record)
    (h : r ∈ retainLast recs) : mostRecent recs r.key_bytes = some r := by
  induction recs with
  | nil => simp [retainLast] at h
  | cons a rs ih =>
    rw [mostRecent_cons]
    simp only [retainLast] at h
    split at h
    · rw [ih h]
      rfl
    · rename_i hany
      rcases List.mem_cons.mp h with h | h
      · subst h
        have hnone : mostRecent rs r.key_bytes = none := by
          rw [mostRecent_eq_none]
          intro r1 hr1 hk
          exact hany ((any_same_key rs r.key_bytes).mpr ⟨r1, hr1, hk⟩)
        rw [hnone]
        simp
      · rw [ih h]
        rfl

theorem mem_retainLast_of_mostRecent (recs : List Record) (K : List Byte) (r : Record)
    (h : mostRecent recs K = some r) : r ∈ retainLast recs := by
  induction recs with
  | nil => simp [mostRecent] at h
  | cons a rs ih =>
    rw [mostRecent_cons] at h
    simp only [retainLast]
    cases hrs : mostRecent rs K with
    | some r1 =>
      rw [hrs] at h
      simp only [Option.or_some] at h
      have hr : r1 = r := Option.some.inj h
      subst hr
      split
      · exact ih hrs
      · exact List.mem_cons_of_mem a (ih hrs)
    | none =>
      rw [hrs] at h
      simp only [Option.none_or] at h
      by_cases hk : a.key_bytes = K
      · rw [if_pos hk] at h
        have hr : a = r := Option.some.inj h
        subst hr
        have hany : ¬ rs.any (fun r1 => decide (r1.key_bytes = a.key_bytes)) = true := by
          rw [any_same_key]
          rintro ⟨r1, hr1, hk1⟩
          exact (mostRecent_eq_none rs K).mp hrs r1 hr1 (hk1.trans hk)
        rw [if_neg hany]
        exact List.mem_cons_self a _
      · rw [if_neg hk] at h
        exact Option.noConfusion h

/-- The hash of the entry at position `j` of an index, as `lowerBound` reads it. -/
theorem hashAt_of_getElem? (index : List OffsetArray) (j : Nat) (e : OffsetArray)
    (h : index[j]? = some e) : (index.getD j { hash_ := 0, offset_ := 0 }).hash_ = e.hash_ := by
  rw [List.getD_eq_getElem?_getD, h]
  rfl

theorem lowerBound_spec (index : List OffsetArray) (H : Nat)
    (hsorted : ∀ i j, i ≤ j → j < index.length →
      (index.getD i { hash_ := 0, offset_ := 0 }).hash_
        ≤ (index.getD j { hash_ := 0, offset_ := 0 }).hash_)
    (fuel lo hi : Nat) (hlohi : lo ≤ hi) (hhi : hi ≤ index.length) (hfuel : hi - lo ≤ fuel)
    (hbelow : ∀ j, j < lo → (index.getD j { hash_ := 0, offset_ := 0 }).hash_ < H)
    (habove : ∀ j, hi ≤ j → j < index.length →
      H ≤ (index.getD j { hash_ := 0, offset_ := 0 }).hash_) :
    lowerBound index H fuel lo hi ≤ index.length ∧
    (∀ j, j < lowerBound index H fuel lo hi →
      (index.getD j { hash_ := 0, offset_ := 0 }).hash_ < H) ∧
    (∀ j, lowerBound index H fuel lo hi ≤ j → j < index.length →
      H ≤ (index.getD j { hash_ := 0, offset_ := 0 }).hash_) := by
  induction fuel generalizing lo hi with
  | zero =>
    have : lo = hi := by omega
    subst this
    simp only [lowerBound]
    exact ⟨hhi, hbelow, habove⟩
  | succ fuel ih =>
    simp only [lowerBound]
    by_cases hlt : lo < hi
    · rw [if_pos hlt]
      have hmid1 : lo ≤ (lo + hi) / 2 := by omega
      have hmid2 : (lo + hi) / 2 < hi := by omega
      by_cases hcmp : (index.getD ((lo + hi) / 2) { hash_ := 0, offset_ := 0 }).hash_ < H
      · rw [if_pos hcmp]
        apply ih ((lo + hi) / 2 + 1) hi (by omega) hhi (by omega) _ habove
        intro j hj
        exact Nat.lt_of_le_of_lt (hsorted j ((lo + hi) / 2) (by omega) (by omega)) hcmp
      · rw [if_neg hcmp]
        apply ih lo ((lo + hi) / 2) hmid1 (by omega) (by omega) hbelow
        intro j hj hjn
        exact Nat.le_trans (Nat.not_lt.mp hcmp) (hsorted ((lo + hi) / 2) j hj hjn)
    · rw [if_neg hlt]
      have : lo = hi := by omega
      subst this
      exact ⟨hhi, hbelow, habove⟩


theorem build_sorted (recs : List Record) : List.Sorted OffsetArray.le (build recs) := by
  haveI : IsTotal OffsetArray OffsetArray.le := ⟨fun a b => by
    unfold OffsetArray.le
    omega⟩
  haveI : IsTrans OffsetArray OffsetArray.le := ⟨fun a b c hab hbc => by
    unfold OffsetArray.le at *
    omega⟩
  exact List.sorted_insertionSort OffsetArray.le _

theorem build_hash_sorted (recs : List Record) :
    (build recs).Pairwise fun a b => a.hash_ ≤ b.hash_ := by
  refine List.Pairwise.imp ?_ (build_sorted recs)
  intro a b hab
  unfold OffsetArray.le at hab
  omega

theorem mem_build (recs : List Record) (e : OffsetArray) :
    e ∈ build recs ↔
      ∃ r ∈ retainLast recs, ({ hash_ := r.key_hash, offset_ := r.offset } : OffsetArray) = e := by
  unfold build
  rw [(List.perm_insertionSort OffsetArray.le _).mem_iff, List.mem_map]

theorem hashAt_sorted (index : List OffsetArray)
    (hpw : index.Pairwise fun a b => a.hash_ ≤ b.hash_) (i j : Nat) (hij : i ≤ j)
    (hj : j < index.length) :
    (index.getD i { hash_ := 0, offset_ := 0 }).hash_
      ≤ (index.getD j { hash_ := 0, offset_ := 0 }).hash_ := by
  rcases Nat.eq_or_lt_of_le hij with h | h
  · subst h
    exact Nat.le_refl _
  · rw [List.getD_eq_getElem index _ (by omega), List.getD_eq_getElem index _ hj]
    exact List.pairwise_iff_getElem.mp hpw i j (by omega) hj h

theorem scanForward_eq_find (resolver : Nat → List Byte) (H : Nat) (K : List Byte)
    (l : List OffsetArray) (hpw : l.Pairwise fun a b => a.hash_ ≤ b.hash_)
    (hge : ∀ e ∈ l, H ≤ e.hash_) :
    scanForward resolver H K l
      = ((l.filter fun e => decide (e.hash_ = H)).find?
          fun e => decide (resolver e.offset_ = K)).map fun e => e.offset_ := by
  induction l with
  | nil => rfl
  | cons e es ih =>
    have hp := List.pairwise_cons.mp hpw
    have ih1 := ih hp.2 (fun a ha => hge a (List.mem_cons_of_mem e ha))
    by_cases he : e.hash_ = H
    · by_cases hm : resolver e.offset_ = K
      · simp [scanForward, he, hm, List.filter_cons, List.find?_cons]
      · simp only [scanForward, if_pos he, if_neg hm, ih1]
        simp [List.filter_cons, he, List.find?_cons, hm]
    · have hgt : H < e.hash_ := by
        have := hge e (List.mem_cons_self e es)
        omega
      have hnil : (es.filter fun a => decide (a.hash_ = H)) = [] := by
        rw [List.filter_eq_nil_iff]
        intro a ha
        have := hp.1 a ha
        simp only [decide_eq_true_eq]
        omega
      simp [scanForward, he, List.filter_cons, hnil]

theorem lookup_eq_find (index : List OffsetArray) (H : Nat) (K : List Byte)
    (resolver : Nat → List Byte) (hpw : index.Pairwise fun a b => a.hash_ ≤ b.hash_) :
    lookup index H K resolver
      = ((index.filter fun e => decide (e.hash_ = H)).find?
          fun e => decide (resolver e.offset_ = K)).map fun e => e.offset_ := by
  have hspec := lowerBound_spec index H (hashAt_sorted index hpw) index.length 0 index.length
    (Nat.zero_le _) (Nat.le_refl _) (by omega) (fun j hj => absurd hj (Nat.not_lt_zero j))
    (fun j h1 h2 => absurd h2 (Nat.not_lt.mpr h1))
  obtain ⟨-, hbelow, habove⟩ := hspec
  have htake : (index.take (lowerBound index H index.length 0 index.length)).filter
      (fun e => decide (e.hash_ = H)) = [] := by
    rw [List.filter_eq_nil_iff]
    intro e he
    obtain ⟨j, hj⟩ := List.mem_iff_getElem?.mp he
    rw [List.getElem?_take] at hj
    split at hj
    · rename_i hlt
      have := hbelow j hlt
      rw [hashAt_of_getElem? index j e hj] at this
      simp only [decide_eq_true_eq]
      omega
    · exact Option.noConfusion hj
  have hdrop : ∀ e ∈ index.drop (lowerBound index H index.length 0 index.length),
      H ≤ e.hash_ := by
    intro e he
    obtain ⟨j, hj⟩ := List.mem_iff_getElem?.mp he
    rw [List.getElem?_drop] at hj
    obtain ⟨hlt, -⟩ := List.getElem?_eq_some_iff.mp hj
    have := habove _ (Nat.le_add_right _ j) hlt
    rw [hashAt_of_getElem? index _ e hj] at this
    exact this
  unfold lookup
  rw [scanForward_eq_find resolver H K _
    (List.Pairwise.sublist (List.drop_sublist _ index) hpw) hdrop]
  conv_rhs => rw [← List.take_append_drop (lowerBound index H index.length 0 index.length) index]
  rw [List.filter_append, htake, List.nil_append]

theorem lookup_build_eq (hash : List Byte → Nat) (recs : List Record)
    (resolver : Nat → List Byte) (K : List Byte)
    (hhash : ∀ r ∈ recs, r.key_hash = hash r.key_bytes)
    (hres : ∀ r ∈ recs, resolver r.offset = r.key_bytes) :
    lookup (build recs) (hash K) K resolver = (mostRecent recs K).map fun r => r.offset := by
  rw [lookup_eq_find (build recs) (hash K) K resolver (build_hash_sorted recs)]
  cases hmr : mostRecent recs K with
  | none =>
    have hno := (mostRecent_eq_none recs K).mp hmr
    have : ((build recs).filter fun e => decide (e.hash_ = hash K)).find?
        (fun e => decide (resolver e.offset_ = K)) = none := by
      rw [List.find?_eq_none]
      intro e he
      obtain ⟨r, hr, hre⟩ := (mem_build recs e).mp (List.mem_filter.mp he).1
      have hrr := retainLast_subset recs r hr
      subst hre
      simp only [decide_eq_true_eq]
      rw [hres r hrr]
      exact hno r hrr
    rw [this]
    rfl
  | some rstar =>
    obtain ⟨hmem, hkey⟩ := mostRecent_some recs K rstar hmr
    have hin : ({ hash_ := rstar.key_hash, offset_ := rstar.offset } : OffsetArray)
        ∈ (build recs).filter fun e => decide (e.hash_ = hash K) := by
      rw [List.mem_filter]
      refine ⟨(mem_build recs _).mpr ⟨rstar, mem_retainLast_of_mostRecent recs K rstar hmr, rfl⟩,
        ?_⟩
      simp only [decide_eq_true_eq]
      rw [hhash rstar hmem, hkey]
    cases hf : ((build recs).filter fun e => decide (e.hash_ = hash K)).find?
        (fun e => decide (resolver e.offset_ = K)) with
    | none =>
      have := List.find?_eq_none.mp hf _ hin
      simp only [decide_eq_true_eq] at this
      exact absurd ((hres rstar hmem).trans hkey) this
    | some e =>
      have he := List.mem_of_find?_eq_some hf
      have hmatch := List.find?_some hf
      simp only [decide_eq_true_eq] at hmatch
      obtain ⟨r, hr, hre⟩ := (mem_build recs e).mp (List.mem_filter.mp he).1
      have hrr := retainLast_subset recs r hr
      subst hre
      simp only at hmatch
      have hrk : r.key_bytes = K := (hres r hrr).symm.trans hmatch
      have hlast := mostRecent_of_mem_retainLast recs r hr
      rw [hrk, hmr] at hlast
      have : rstar = r := Option.some.inj hlast
      subst this
      rfl


/-! ## Claims C14 and C15 -/

/-- C14: for a log whose records carry the hash of their key and a resolver
that reads the key of the record at an offset, `lookup` on the index built from
the log, called with the hash of a key and the key, returns the offset of the
most recent record with exactly that key, and nothing when no record has that
key, whatever the hash of the key; the built index is non-decreasing in
`hash_`. -/
theorem lookup_correct (hash : List Byte → Nat) (recs : List Record)
    (resolver : Nat → List Byte) (K : List Byte)
    (hhash : ∀ r ∈ recs, r.key_hash = hash r.key_bytes)
    (hres : ∀ r ∈ recs, resolver r.offset = r.key_bytes) :
    lookup (build recs) (hash K) K resolver = (mostRecent recs K).map (fun r => r.offset) ∧
    ((∀ r ∈ recs, r.key_bytes ≠ K) → lookup (build recs) (hash K) K resolver = none) ∧
    (build recs).Pairwise (fun a b => a.hash_ ≤ b.hash_) := by
  have h := lookup_build_eq hash recs resolver K hhash hres
  refine ⟨h, ?_, build_hash_sorted recs⟩
  intro hno
  rw [h, (mostRecent_eq_none recs K).mpr hno]
  rfl

/-- Witness for C14 on the sample log: key `[1]`, written at offsets 0 and 200
and sharing hash 7 with key `[2]`, is found at offset 200; key `[9]`, absent and
also of hash 7, is not found. -/
theorem lookup_correct_witness :
    (∀ r ∈ sampleLog, r.key_hash = sampleHash r.key_bytes) ∧
    (∀ r ∈ sampleLog, sampleResolver r.offset = r.key_bytes) ∧
    lookup (build sampleLog) (sampleHash [1]) [1] sampleResolver
      = (mostRecent sampleLog [1]).map (fun r => r.offset) ∧
    (mostRecent sampleLog [1]).map (fun r => r.offset) = some 200 ∧
    sampleHash [9] = sampleHash [1] ∧
    lookup (build sampleLog) (sampleHash [9]) [9] sampleResolver = none :=
  ⟨by decide, by decide,
    (lookup_correct sampleHash sampleLog sampleResolver [1] (by decide) (by decide)).1,
    by decide, by decide,
    (lookup_correct sampleHash sampleLog sampleResolver [9] (by decide) (by decide)).2.1
      (by decide)⟩

/-- C15: `is_compatible` holds exactly when the major data format version of
the header is the supported one and its minor data format version is at most the
supported one.  The header of the scenario, data format version 1.0, is
compatible with every reader of major version 1 and is opened with `OK`; no
header of major version 1 is compatible with a reader of major version 2, which
opens it with `Invalid`. -/
theorem is_compatible_iff (h : TableHeader) (M m : Nat) :
    (is_compatible h M m = true ↔
      h.majorDataFormatVersion_ = M ∧ h.minorDataFormatVersion_ ≤ m) ∧
    (is_compatible scenarioHeader 1 m = true ∧ openCode scenarioHeader 1 m = Status.Code.OK) ∧
    (h.majorDataFormatVersion_ = 1 →
      is_compatible h 2 m = false ∧ openCode h 2 m = Status.Code.Invalid) := by
  refine ⟨?_, ?_, ?_⟩
  · simp only [is_compatible, Bool.and_eq_true, decide_eq_true_eq]
  · have hc : is_compatible scenarioHeader 1 m = true := by
      simp [is_compatible, scenarioHeader]
    exact ⟨hc, by simp only [openCode, hc, if_true]⟩
  · intro h1
    have hc : is_compatible h 2 m = false := by
      simp [is_compatible, h1]
    exact ⟨hc, by simp [openCode, hc]⟩

/-- Witness for C15: the header of the scenario against a reader of version 2.0. -/
theorem is_compatible_iff_witness :
    scenarioHeader.majorDataFormatVersion_ = 1 ∧
    is_compatible scenarioHeader 2 0 = false ∧
    openCode scenarioHeader 2 0 = Status.Code.Invalid :=
  ⟨rfl, (is_compatible_iff scenarioHeader 2 0).2.2 rfl⟩


end FunDB
